import Mathlib

/-!
Verification of the `announcer` feed reconciler.

This file embeds the core of the repository in Lean 4:
* the MD5 fingerprint over `title-content` (`rss.rs`, `md5::compute`),
* entry-key derivation from the link fragment (`rss.rs`),
* the markdown-link rewrite `format_slack_post` (`slack.rs`),
* JSON (de)serialization of the `Archive` record (`serde_json` usage in `rss.rs`),
* the in-memory state store (`redis_client.rs`, `InMemoryValkey`),
* the per-entry reconciliation step and the feed loop (`rss.rs`, `handle_feed`).

Text is modelled as `List Char`; machine words are `Nat` reduced mod 2^32.
-/

namespace Announcer

/-! ## MD5 (RFC 1321, as computed by the `md5` crate) -/

/-- Mask a natural number to 32 bits. -/
def mask32 (x : Nat) : Nat := x % 4294967296

/-- 32-bit left rotation. -/
def rotl32 (x s : Nat) : Nat := ((x <<< s) ||| (x >>> (32 - s))) &&& 4294967295

/-- Bitwise complement within 32 bits. -/
def not32 (x : Nat) : Nat := x ^^^ 4294967295

/-- MD5 per-round shift amounts. -/
def md5Shifts : List Nat :=
  [7, 12, 17, 22, 7, 12, 17, 22, 7, 12, 17, 22, 7, 12, 17, 22,
   5, 9, 14, 20, 5, 9, 14, 20, 5, 9, 14, 20, 5, 9, 14, 20,
   4, 11, 16, 23, 4, 11, 16, 23, 4, 11, 16, 23, 4, 11, 16, 23,
   6, 10, 15, 21, 6, 10, 15, 21, 6, 10, 15, 21, 6, 10, 15, 21]

/-- MD5 round constants: `floor(abs(sin(i+1)) * 2^32)`. -/
def md5K : List Nat :=
  [3614090360, 3905402710, 606105819, 3250441966, 4118548399, 1200080426,
   2821735955, 4249261313, 1770035416, 2336552879, 4294925233, 2304563134,
   1804603682, 4254626195, 2792965006, 1236535329, 4129170786, 3225465664,
   643717713, 3921069994, 3593408605, 38016083, 3634488961, 3889429448,
   568446438, 3275163606, 4107603335, 1163531501, 2850285829, 4243563512,
   1735328473, 2368359562, 4294588738, 2272392833, 1839030562, 4259657740,
   2763975236, 1272893353, 4139469664, 3200236656, 681279174, 3936430074,
   3572445317, 76029189, 3654602809, 3873151461, 530742520, 3299628645,
   4096336452, 1126891415, 2878612391, 4237533241, 1700485571, 2399980690,
   4293915773, 2240044497, 1873313359, 4264355552, 2734768916, 1309151649,
   4149444226, 3174756917, 718787259, 3951481745]

/-- MD5 internal state: the four 32-bit registers. -/
structure Md5State where
  a : Nat
  b : Nat
  c : Nat
  d : Nat
deriving DecidableEq

/-- MD5 initial state. -/
def md5Init : Md5State := ⟨1732584193, 4023233417, 2562383102, 271733878⟩

/-- The nonlinear function and message index for round `i`. -/
def md5FG (st : Md5State) (i : Nat) : Nat × Nat :=
  if i < 16 then ((st.b &&& st.c) ||| (not32 st.b &&& st.d), i)
  else if i < 32 then ((st.d &&& st.b) ||| (not32 st.d &&& st.c), (5 * i + 1) % 16)
  else if i < 48 then (st.b ^^^ st.c ^^^ st.d, (3 * i + 5) % 16)
  else (st.c ^^^ (st.b ||| not32 st.d), (7 * i) % 16)

/-- One MD5 round on a 16-word message block `m`. -/
def md5Step (m : List Nat) (st : Md5State) (i : Nat) : Md5State :=
  let fg := md5FG st i
  let f := mask32 (fg.1 + st.a + md5K.getD i 0 + m.getD fg.2 0)
  ⟨st.d, mask32 (st.b + rotl32 f (md5Shifts.getD i 0)), st.b, st.c⟩

/-- Process one 512-bit block: 64 rounds, then add into the state. -/
def md5Block (st : Md5State) (m : List Nat) : Md5State :=
  let e := (List.range 64).foldl (md5Step m) st
  ⟨mask32 (st.a + e.a), mask32 (st.b + e.b), mask32 (st.c + e.c), mask32 (st.d + e.d)⟩

/-- Group a byte list into little-endian 32-bit words. -/
def toWordsLE : List Nat → List Nat
  | b0 :: b1 :: b2 :: b3 :: rest =>
      (b0 + 256 * b1 + 65536 * b2 + 16777216 * b3) :: toWordsLE rest
  | _ => []

/-- Split a list into chunks of 64 elements, driven by fuel. -/
def chunks64Fuel : Nat → List Nat → List (List Nat)
  | 0, _ => []
  | _, [] => []
  | fuel + 1, l => l.take 64 :: chunks64Fuel fuel (l.drop 64)

/-- Split a byte list into 64-byte chunks. -/
def chunks64 (l : List Nat) : List (List Nat) := chunks64Fuel l.length l

/-- The 8-byte little-endian encoding of the message bit length. -/
def lenBytesLE (len : Nat) : List Nat :=
  (List.range 8).map (fun i => ((len * 8) >>> (8 * i)) % 256)

/-- MD5 padding: `0x80`, zeros to 56 mod 64, then the 64-bit bit length. -/
def md5Pad (msg : List Nat) : List Nat :=
  msg ++ 128 :: List.replicate ((119 - msg.length % 64) % 64) 0 ++ lenBytesLE msg.length

/-- MD5 of a byte list, as the final register state. -/
def md5Words (msg : List Nat) : Md5State :=
  ((chunks64 (md5Pad msg)).map toWordsLE).foldl md5Block md5Init

/-- Little-endian byte decomposition of a 32-bit word. -/
def wordBytesLE (w : Nat) : List Nat :=
  [w % 256, w / 256 % 256, w / 65536 % 256, w / 16777216 % 256]

/-- The 16-byte MD5 digest of a byte list. -/
def md5Bytes (msg : List Nat) : List Nat :=
  let st := md5Words msg
  wordBytesLE st.a ++ wordBytesLE st.b ++ wordBytesLE st.c ++ wordBytesLE st.d

/-- Lowercase hexadecimal digit for `n < 16`. -/
def hexChar (n : Nat) : Char :=
  if n < 10 then Char.ofNat (48 + n) else Char.ofNat (87 + n)

/-- Two lowercase hex digits of a byte. -/
def byteHex (b : Nat) : List Char := [hexChar (b / 16), hexChar (b % 16)]

/-- Lowercase-hex MD5 digest of a byte list (Rust: `format!("\x7b:x\x7d", md5::compute(..))`). -/
def md5Hex (msg : List Nat) : List Char := ((md5Bytes msg).map byteHex).flatten

/-! ## UTF-8 encoding of text (Rust strings are UTF-8) -/

/-- UTF-8 bytes of one character. -/
def utf8Char (c : Char) : List Nat :=
  let n := c.toNat
  if n < 128 then [n]
  else if n < 2048 then [192 + n / 64, 128 + n % 64]
  else if n < 65536 then [224 + n / 4096, 128 + (n / 64) % 64, 128 + n % 64]
  else [240 + n / 262144, 128 + (n / 4096) % 64, 128 + (n / 64) % 64, 128 + n % 64]

/-- UTF-8 bytes of a character list. -/
def strBytes (s : List Char) : List Nat := (s.map utf8Char).flatten

/-! ## Fingerprint (rss.rs lines 93-96) -/

/-- `format!("\x7b:x\x7d", md5::compute(format!("\x7b\x7d-\x7b\x7d", item.title, item.content)))`:
the lowercase-hex MD5 digest of `title ++ "-" ++ content`. -/
def fingerprint (title content : List Char) : List Char :=
  md5Hex (strBytes (title ++ '-' :: content))

/-! ## Entry key derivation (rss.rs lines 79-85)

Rust: `item.link.split('#').collect::<Vec<&str>>().get(1).copied().unwrap_or(&item.link)`. -/

/-- Rust `str::split('#')`: the list of `#`-separated segments (never empty). -/
def splitHash : List Char → List (List Char)
  | [] => [[]]
  | c :: rest =>
    match splitHash rest with
    | [] => [[]]
    | s :: ss => if c = '#' then [] :: s :: ss else (c :: s) :: ss

/-- The entry key: segment index 1 of the `#`-split, or the whole link if absent. -/
def deriveKey (link : List Char) : List Char := (splitHash link).getD 1 link

/-! ## Markdown-link rewrite (slack.rs lines 29-36)

`Regex::new(r"\[(.*?)\]\((.*?)\)").replace_all(org, "<$2|$1>")`, with the
`regex` crate's leftmost match and lazy (non-greedy) quantifier semantics;
`.` matches any character except a newline. -/

/-- Match `(.*?)\)` at the head of the input: the (lazy) shortest run of
non-newline characters up to a closing parenthesis. Returns the captured
text and the remaining input. -/
def matchUrl : List Char → Option (List Char × List Char)
  | [] => none
  | c :: rest =>
    if c = ')' then some ([], rest)
    else if c = '\n' then none
    else (matchUrl rest).map (fun p => (c :: p.1, p.2))

/-- Match `(.*?)\]\((.*?)\)` at the head of the input, with the lazy
quantifiers extending only as far as needed (and on failure of the second
capture, the first extending further, as a backtracking engine would).
Returns both captures and the remaining input. -/
def matchTU : List Char → Option (List Char × List Char × List Char)
  | [] => none
  | c :: rest =>
    if c = '\n' then none
    else if c = ']' ∧ rest.head? = some '(' ∧ (matchUrl rest.tail).isSome then
      (matchUrl rest.tail).map (fun p => ([], p.1, p.2))
    else (matchTU rest).map (fun p => (c :: p.1, p.2))

theorem matchUrl_length {s u r : List Char} (h : matchUrl s = some (u, r)) :
    r.length < s.length := by
  induction s generalizing u r with
  | nil => simp [matchUrl] at h
  | cons c rest ih =>
    simp only [matchUrl] at h
    split at h
    · simp only [Option.some.injEq, Prod.mk.injEq] at h
      obtain ⟨_, h2⟩ := h
      subst h2; simp
    · split at h
      · simp at h
      · cases hm : matchUrl rest with
        | none => rw [hm] at h; simp at h
        | some p =>
          rw [hm] at h
          simp only [Option.map_some', Option.some.injEq, Prod.mk.injEq] at h
          obtain ⟨_, h2⟩ := h
          have hlt := ih (u := p.1) (r := p.2) (by rw [hm])
          subst h2; simp only [List.length_cons]; omega

theorem matchTU_length {s t u r : List Char} (h : matchTU s = some (t, u, r)) :
    r.length < s.length := by
  induction s generalizing t u r with
  | nil => simp [matchTU] at h
  | cons c rest ih =>
    simp only [matchTU] at h
    split at h
    · simp at h
    · split at h
      · cases hm : matchUrl rest.tail with
        | none => rw [hm] at h; simp at h
        | some p =>
          rw [hm] at h
          simp only [Option.map_some', Option.some.injEq, Prod.mk.injEq] at h
          obtain ⟨_, _, h3⟩ := h
          have hlt := matchUrl_length (u := p.1) (r := p.2) (by rw [hm])
          have htl : rest.tail.length ≤ rest.length := by
            cases rest <;> simp
          subst h3; simp only [List.length_cons]; omega
      · cases hm : matchTU rest with
        | none => rw [hm] at h; simp at h
        | some p =>
          obtain ⟨p1, p2, p3⟩ := p
          rw [hm] at h
          simp only [Option.map_some', Option.some.injEq, Prod.mk.injEq] at h
          obtain ⟨_, _, h3⟩ := h
          have hlt := ih (t := p1) (u := p2) (r := p3) (by rw [hm])
          subst h3; simp only [List.length_cons]; omega

/-- `replace_all`: scan left to right; at each `[` attempt a match of
`\[(.*?)\]\((.*?)\)` and rewrite it to `<$2|$1>`, resuming after the match;
otherwise copy the character. -/
def replaceAll : List Char → List Char
  | [] => []
  | c :: rest =>
    if c = '[' then
      match hm : matchTU rest with
      | some (t, u, r) =>
        have : r.length < rest.length + 1 := by
          have := matchTU_length hm
          omega
        '<' :: u ++ '|' :: t ++ '>' :: replaceAll r
      | none => c :: replaceAll rest
    else c :: replaceAll rest
termination_by s => s.length

/-- `format_slack_post` (slack.rs lines 29-36). -/
def format_slack_post (org : List Char) : List Char := replaceAll org

/-- Whether the pattern `\[(.*?)\]\((.*?)\)` matches anywhere in the input
(i.e. whether the input contains a markdown link as the regex sees it). -/
def hasLink : List Char → Bool
  | [] => false
  | c :: rest => (c = '[' && (matchTU rest).isSome) || hasLink rest

/-! ## The Archive record and its JSON round trip (rss.rs lines 38-42,
108, 124-129, 141-146; serde_json semantics) -/

/-- Opening brace character. -/
def lbrace : Char := Char.ofNat 123

/-- Closing brace character. -/
def rbrace : Char := Char.ofNat 125

/-- The persisted record: `pub struct Archive \x7b hash, timestamp \x7d`. -/
structure Archive where
  hash : List Char
  timestamp : List Char
deriving DecidableEq

/-- serde_json string escaping for one character. -/
def jsonEscapeChar (c : Char) : List Char :=
  if c = '"' then ['\\', '"']
  else if c = '\\' then ['\\', '\\']
  else if c = Char.ofNat 8 then ['\\', 'b']
  else if c = '\t' then ['\\', 't']
  else if c = '\n' then ['\\', 'n']
  else if c = Char.ofNat 12 then ['\\', 'f']
  else if c = '\r' then ['\\', 'r']
  else if c.toNat < 32 then ['\\', 'u', '0', '0', hexChar (c.toNat / 16), hexChar (c.toNat % 16)]
  else [c]

/-- A serde_json string literal: quoted, contents escaped. -/
def jsonQuote (s : List Char) : List Char := '"' :: (s.map jsonEscapeChar).flatten ++ ['"']

/-- `serde_json::to_string(&archive)`: fields in declaration order, no spaces. -/
def serializeArchive (a : Archive) : List Char :=
  lbrace :: jsonQuote "hash".data ++ ':' :: jsonQuote a.hash
    ++ ',' :: jsonQuote "timestamp".data ++ ':' :: jsonQuote a.timestamp ++ [rbrace]

/-- JSON values (numbers kept as lexemes; their value is never used). -/
inductive Json where
  | nul : Json
  | boolean : Bool → Json
  | num : List Char → Json
  | str : List Char → Json
  | arr : List Json → Json
  | obj : List (List Char × Json) → Json

/-- JSON whitespace. -/
def isJsonWs (c : Char) : Bool := c = ' ' || c = '\t' || c = '\n' || c = '\r'

/-- Drop leading JSON whitespace. -/
def skipWs (s : List Char) : List Char := s.dropWhile isJsonWs

/-- Value of a hexadecimal digit. -/
def hexVal (c : Char) : Option Nat :=
  if '0' ≤ c ∧ c ≤ '9' then some (c.toNat - 48)
  else if 'a' ≤ c ∧ c ≤ 'f' then some (c.toNat - 87)
  else if 'A' ≤ c ∧ c ≤ 'F' then some (c.toNat - 55)
  else none

/-- Decode one JSON string escape (the part after the backslash): simple
escapes, `\uXXXX`, and surrogate pairs; lone surrogates are rejected.
Returns the decoded character and the remaining input. -/
def escDecode : List Char → Option (Char × List Char)
  | [] => none
  | e :: rest2 =>
    if e = '"' then some ('"', rest2)
    else if e = '\\' then some ('\\', rest2)
    else if e = '/' then some ('/', rest2)
    else if e = 'b' then some (Char.ofNat 8, rest2)
    else if e = 'f' then some (Char.ofNat 12, rest2)
    else if e = 'n' then some ('\n', rest2)
    else if e = 'r' then some ('\r', rest2)
    else if e = 't' then some ('\t', rest2)
    else if e = 'u' then
      (match rest2 with
       | h1 :: h2 :: h3 :: h4 :: rest3 =>
         (match hexVal h1, hexVal h2, hexVal h3, hexVal h4 with
          | some x1, some x2, some x3, some x4 =>
            let n := 4096 * x1 + 256 * x2 + 16 * x3 + x4
            if n < 55296 ∨ 57343 < n then some (Char.ofNat n, rest3)
            else if n < 56320 then
              (match rest3 with
               | '\\' :: 'u' :: g1 :: g2 :: g3 :: g4 :: rest4 =>
                 (match hexVal g1, hexVal g2, hexVal g3, hexVal g4 with
                  | some y1, some y2, some y3, some y4 =>
                    let m := 4096 * y1 + 256 * y2 + 16 * y3 + y4
                    if 56320 ≤ m ∧ m ≤ 57343 then
                      some (Char.ofNat (65536 + 1024 * (n - 55296) + (m - 56320)), rest4)
                    else none
                  | _, _, _, _ => none)
               | _ => none)
            else none
          | _, _, _, _ => none)
       | _ => none)
    else none

/-- Parse the body of a JSON string literal (after the opening quote) up to
its closing quote, with fuel driving the recursion over decoded escapes:
escapes are decoded, raw control characters are rejected. -/
def parseStrBodyF : Nat → List Char → Option (List Char × List Char)
  | 0, _ => none
  | _ + 1, [] => none
  | fuel + 1, c :: rest =>
    if c = '"' then some ([], rest)
    else if c = '\\' then
      match escDecode rest with
      | some (ch, rest2) => (parseStrBodyF fuel rest2).map (fun p => (ch :: p.1, p.2))
      | none => none
    else if c.toNat < 32 then none
    else (parseStrBodyF fuel rest).map (fun p => (c :: p.1, p.2))

/-- Parse a JSON string literal body; one unit of fuel per character is
always enough, since every step consumes at least one input character. -/
def parseStrBody (s : List Char) : Option (List Char × List Char) :=
  parseStrBodyF s.length s

/-- Leading run of decimal digits. -/
def numDigits (s : List Char) : List Char × List Char := s.span Char.isDigit

/-- Parse an optional exponent after the integer/fraction part. -/
def numAfterFrac (lex : List Char) (s : List Char) : Option (Json × List Char) :=
  match s with
  | c :: r =>
    if c = 'e' ∨ c = 'E' then
      let sr : List Char × List Char :=
        match r with
        | '+' :: rr => (['+'], rr)
        | '-' :: rr => (['-'], rr)
        | _ => ([], r)
      let d := numDigits sr.2
      if d.1 = [] then none else some (Json.num (lex ++ c :: sr.1 ++ d.1), d.2)
    else some (Json.num lex, s)
  | [] => some (Json.num lex, [])

/-- Parse an optional fraction part after the integer part. -/
def numAfterInt (lex : List Char) (s : List Char) : Option (Json × List Char) :=
  match s with
  | '.' :: r =>
    let d := numDigits r
    if d.1 = [] then none else numAfterFrac (lex ++ '.' :: d.1) d.2
  | _ => numAfterFrac lex s

/-- Parse a JSON number (RFC 8259 / serde_json grammar; lexeme only). -/
def parseNum (s : List Char) : Option (Json × List Char) :=
  let p : List Char × List Char :=
    match s with
    | '-' :: r => (['-'], r)
    | _ => ([], s)
  match p.2 with
  | c :: r =>
    if c = '0' then numAfterInt (p.1 ++ ['0']) r
    else if c.isDigit then
      let d := numDigits p.2
      numAfterInt (p.1 ++ d.1) d.2
    else none
  | [] => none

mutual

/-- Parse a JSON value (fuel-driven recursion). -/
def parseValue : Nat → List Char → Option (Json × List Char)
  | 0, _ => none
  | fuel + 1, s =>
    match skipWs s with
    | [] => none
    | c :: r =>
      if c = '"' then (parseStrBody r).map (fun p => (Json.str p.1, p.2))
      else if c = lbrace then parseObjRest fuel (skipWs r)
      else if c = '[' then parseArrRest fuel (skipWs r)
      else if c = 't' then
        match r with
        | 'r' :: 'u' :: 'e' :: r2 => some (Json.boolean true, r2)
        | _ => none
      else if c = 'f' then
        match r with
        | 'a' :: 'l' :: 's' :: 'e' :: r2 => some (Json.boolean false, r2)
        | _ => none
      else if c = 'n' then
        match r with
        | 'u' :: 'l' :: 'l' :: r2 => some (Json.nul, r2)
        | _ => none
      else parseNum (c :: r)

/-- Parse the inside of an object after `\x7b` (whitespace already skipped). -/
def parseObjRest : Nat → List Char → Option (Json × List Char)
  | 0, _ => none
  | fuel + 1, s =>
    match s with
    | [] => none
    | c :: r =>
      if c = rbrace then some (Json.obj [], r)
      else (parseMembers fuel s).map (fun p => (Json.obj p.1, p.2))

/-- Parse one or more `"key": value` members separated by commas, up to the
closing brace. -/
def parseMembers : Nat → List Char → Option (List (List Char × Json) × List Char)
  | 0, _ => none
  | fuel + 1, s =>
    match s with
    | [] => none
    | c :: r =>
      if c = '"' then
        match parseStrBody r with
        | some (k, r2) =>
          (match skipWs r2 with
           | c2 :: r3 =>
             if c2 = ':' then
               match parseValue fuel r3 with
               | some (v, r4) =>
                 (match skipWs r4 with
                  | c3 :: r5 =>
                    if c3 = ',' then
                      (parseMembers fuel (skipWs r5)).map (fun p => ((k, v) :: p.1, p.2))
                    else if c3 = rbrace then some ([(k, v)], r5)
                    else none
                  | [] => none)
               | none => none
             else none
           | [] => none)
        | none => none
      else none

/-- Parse the inside of an array after `[` (whitespace already skipped). -/
def parseArrRest : Nat → List Char → Option (Json × List Char)
  | 0, _ => none
  | fuel + 1, s =>
    match s with
    | [] => none
    | c :: r =>
      if c = ']' then some (Json.arr [], r)
      else (parseElems fuel s).map (fun p => (Json.arr p.1, p.2))

/-- Parse one or more array elements separated by commas, up to `]`. -/
def parseElems : Nat → List Char → Option (List Json × List Char)
  | 0, _ => none
  | fuel + 1, s =>
    match parseValue fuel s with
    | some (v, r) =>
      (match skipWs r with
       | ',' :: r2 => (parseElems fuel r2).map (fun p => (v :: p.1, p.2))
       | ']' :: r2 => some ([v], r2)
       | _ => none)
    | none => none

end

/-- Number of members with the given key. -/
def countKey (fs : List (List Char × Json)) (k : List Char) : Nat :=
  fs.countP (fun p => p.1 == k)

/-- The string value of the first member with the given key, if any. -/
def getStrField (fs : List (List Char × Json)) (k : List Char) : Option (List Char) :=
  match fs.find? (fun p => p.1 == k) with
  | some (_, Json.str v) => some v
  | _ => none

/-- serde's derived deserializer for `Archive`: the value must be an object
with exactly one `hash` and one `timestamp` member (duplicates of a known
field are an error), both strings; unknown members are ignored. -/
def deserArchive (j : Json) : Option Archive :=
  match j with
  | Json.obj fs =>
    if countKey fs "hash".data = 1 ∧ countKey fs "timestamp".data = 1 then
      match getStrField fs "hash".data, getStrField fs "timestamp".data with
      | some h, some t => some ⟨h, t⟩
      | _, _ => none
    else none
  | _ => none

/-- `serde_json::from_str::<Archive>`: parse a single JSON value, reject
trailing characters, then deserialize the struct. -/
def parseArchive (s : List Char) : Option Archive :=
  match parseValue (3 * s.length + 3) s with
  | some (j, rest) => if skipWs rest = [] then deserArchive j else none
  | none => none

/-! ## In-memory state store (redis_client.rs lines 104-126)

`InMemoryValkey` wraps a `HashMap<String, String>`; modelled as an
association list where an insert shadows earlier entries for the key. -/

/-- The in-memory store contents. -/
abbrev ImStore := List (List Char × List Char)

/-- `InMemoryValkey::new()`: an empty map. -/
def imNew : ImStore := []

/-- `HashMap::get(key).cloned()`. -/
def imLookup (s : ImStore) (k : List Char) : Option (List Char) :=
  (List.find? (fun p => p.1 == k) s).map (fun p => p.2)

/-- `HashMap::insert(key, value)`: the new binding shadows any older one. -/
def imInsert (s : ImStore) (k v : List Char) : ImStore := (k, v) :: s

/-- `InMemoryValkey::get`: always `Ok` (redis_client.rs lines 118-120). -/
def imGet (s : ImStore) (k : List Char) : Except (List Char) (Option (List Char)) :=
  .ok (imLookup s k)

/-- `InMemoryValkey::set`: always `Ok` (redis_client.rs lines 122-125). -/
def imSet (s : ImStore) (k v : List Char) : Except (List Char) Unit × ImStore :=
  (.ok (), imInsert s k v)

/-! ## The reconciler (rss.rs, `handle_feed`) -/

/-- A feed item (rss.rs `Post`). -/
structure Post where
  title : List Char
  link : List Char
  pubDate : List Char
  content : List Char
deriving DecidableEq

/-- `FeedError` (rss.rs lines 9-14). The error strings carried by the Rust
variants are irrelevant to control flow and are not modelled. -/
inductive FeedError where
  | rssParse : FeedError
  | invalidArchive : List Char → FeedError
  | serializeArchive : List Char → FeedError
deriving DecidableEq

instance {ε α : Type} [DecidableEq ε] [DecidableEq α] : DecidableEq (Except ε α) := fun a b =>
  match a, b with
  | .ok x, .ok y =>
    if h : x = y then .isTrue (congrArg Except.ok h)
    else .isFalse (fun hh => h (Except.ok.inj hh))
  | .error x, .error y =>
    if h : x = y then .isTrue (congrArg Except.error h)
    else .isFalse (fun hh => h (Except.error.inj hh))
  | .ok _, .error _ => .isFalse (fun hh => Except.noConfusion hh)
  | .error _, .ok _ => .isFalse (fun hh => Except.noConfusion hh)

/-- One observable call made by the reconciler to a collaborator, with the
collaborator's response. -/
inductive Event where
  | getE : List Char → Except (List Char) (Option (List Char)) → Event
  | postE : Post → Except (List Char) (List Char) → Event
  | updateE : Post → List Char → Except (List Char) (List Char) → Event
  | setE : List Char → List Char → Except (List Char) Unit → Event
deriving DecidableEq

/-- The responses the state store and the notification sink give to the
(at most one of each) calls made while processing one entry:
`getRes` for `store.get(&key)`, `postRes` for `slack_client.post_message`
(`Ok` carries `response.ts`), `updateRes` for `slack_client.update_message`,
`setRes` for `store.set(&key, &raw)`. -/
structure ItemOracle where
  getRes : Except (List Char) (Option (List Char))
  postRes : Except (List Char) (List Char)
  updateRes : Except (List Char) (List Char)
  setRes : Except (List Char) Unit
deriving DecidableEq

/-- Processing of one entry (rss.rs lines 78-162, the `Some(store)` path),
with collaborator responses supplied by `o`. Returns the calls made, in
order, and `Ok`/the error that `?` propagates out of `handle_feed`.
`serde_json::to_string(&archive)` cannot fail for `Archive` (two plain
string fields), so serialization is modelled as total and the
`SerializeArchive` branch (rss.rs lines 141-146) has no failing case. -/
def processItem (item : Post) (o : ItemOracle) : List Event × Except FeedError Unit :=
  let key := deriveKey item.link
  let hashed := fingerprint item.title item.content
  match o.getRes with
  | .ok none =>
    (match o.postRes with
     | .ok ts =>
       let raw := serializeArchive ⟨hashed, ts⟩
       ([.getE key o.getRes, .postE item o.postRes, .setE key raw o.setRes], .ok ())
     | .error _ => ([.getE key o.getRes, .postE item o.postRes], .ok ()))
  | .ok (some raw) =>
    (match parseArchive raw with
     | none => ([.getE key o.getRes], .error (.invalidArchive key))
     | some archive =>
       if archive.hash = hashed then ([.getE key o.getRes], .ok ())
       else
         match o.updateRes with
         | .ok _ =>
           let raw2 := serializeArchive ⟨hashed, archive.timestamp⟩
           ([.getE key o.getRes, .updateE item archive.timestamp o.updateRes,
             .setE key raw2 o.setRes], .ok ())
         | .error _ =>
           ([.getE key o.getRes, .updateE item archive.timestamp o.updateRes], .ok ()))
  | .error _ => ([.getE key o.getRes], .ok ())

/-- The `for item in doc.channel.posts` loop: items are processed in order;
an `Err` from an item (the `?` operator) aborts the whole pass at once,
later items are not reached; otherwise the pass returns `Ok(())`. -/
def runItems : List (Post × ItemOracle) → List Event × Except FeedError Unit
  | [] => ([], .ok ())
  | (p, o) :: rest =>
    match processItem p o with
    | (evs, .ok _) =>
      let r := runItems rest
      (evs ++ r.1, r.2)
    | (evs, .error e) => (evs, .error e)

/-- The synthetic message handle returned by `StdoutSlackClient::post_message`
(slack.rs line 116). -/
def dryRunTs : List Char := "dry-run".data

/-- Processing of one entry in dry-run mode: the store is the in-memory map
(`get`/`set` never fail) and the sink is `StdoutSlackClient` (always `Ok`;
`post_message` returns handle `"dry-run"`, `update_message` echoes the
given timestamp). Returns the updated store and the entry's outcome. -/
def dryRunItem (item : Post) (s : ImStore) : ImStore × Except FeedError Unit :=
  let key := deriveKey item.link
  let hashed := fingerprint item.title item.content
  match imLookup s key with
  | none => (imInsert s key (serializeArchive ⟨hashed, dryRunTs⟩), .ok ())
  | some raw =>
    (match parseArchive raw with
     | none => (s, .error (.invalidArchive key))
     | some archive =>
       if archive.hash = hashed then (s, .ok ())
       else (imInsert s key (serializeArchive ⟨hashed, archive.timestamp⟩), .ok ()))

/-- The feed loop in dry-run mode, threading the in-memory store. -/
def runDryRun : List Post → ImStore → ImStore × Except FeedError Unit
  | [], s => (s, .ok ())
  | p :: rest, s =>
    match dryRunItem p s with
    | (s2, .ok _) => runDryRun rest s2
    | (s2, .error e) => (s2, .error e)

/-- `handle_feed` in dry-run mode, after a successful feed parse: the store
starts out as `InMemoryValkey::new()` (rss.rs line 55). -/
def handleFeedDryRun (items : List Post) : Except FeedError Unit :=
  (runDryRun items imNew).2

/-- Is the event a Sink call (`post_message` or `update_message`)? -/
def Event.isSink : Event → Bool
  | .postE _ _ => true
  | .updateE _ _ _ => true
  | _ => false

/-- Is the event a `post_message` call? -/
def Event.isPost : Event → Bool
  | .postE _ _ => true
  | _ => false

/-- Is the event an `update_message` call? -/
def Event.isUpdate : Event → Bool
  | .updateE _ _ _ => true
  | _ => false

/-- Is the event a store `set`? -/
def Event.isSet : Event → Bool
  | .setE _ _ _ => true
  | _ => false

/-- Is the event a store `get`? -/
def Event.isGet : Event → Bool
  | .getE _ _ => true
  | _ => false

/-- Lowercase hexadecimal character. -/
def isHexLowerChar (c : Char) : Bool :=
  (48 ≤ c.toNat && c.toNat ≤ 57) || (97 ≤ c.toNat && c.toNat ≤ 102)

/-- Whether the text contains the two-character sequence `](`. -/
def hasRB : List Char → Bool
  | [] => false
  | c :: rest => (c = ']' && rest.head? = some '(') || hasRB rest

/-- A markdown link `[t](u)`. -/
def mdLink (t u : List Char) : List Char := '[' :: t ++ ']' :: '(' :: u ++ [')']

/-- The Slack-native rendering `<u|t>`. -/
def slackLink (t u : List Char) : List Char := '<' :: u ++ '|' :: t ++ ['>']

/-- Conditions under which `[t](u)` is matched exactly as written: the text
has no newline and no `](` inside, the url has no newline and no `)`. -/
abbrev linkOk (t u : List Char) : Prop :=
  (∀ c ∈ t, c ≠ '\n') ∧ hasRB t = false ∧ (∀ c ∈ u, c ≠ '\n' ∧ c ≠ ')')

/-- A character that JSON-serializes to itself: not a quote, not a
backslash, not a control character. -/
abbrev plainChar (c : Char) : Prop := c ≠ '"' ∧ c ≠ '\\' ∧ 32 ≤ c.toNat

/-- A string of plain characters. -/
abbrev plainStr (s : List Char) : Prop := ∀ c ∈ s, plainChar c

/-- Every value in the store is the serialization of an `Archive` with
plain fields — the invariant the dry-run pass maintains. -/
def storeOk (s : ImStore) : Prop :=
  ∀ kv ∈ s, ∃ a : Archive, kv.2 = serializeArchive a ∧ plainStr a.hash ∧ plainStr a.timestamp

/-! ## Concrete fixtures used to instantiate the theorems -/

/-- A concrete feed entry (the repository's own test fixture, shortened). -/
def itemW : Post :=
  ⟨"Test Post".data, "https://nais.io/log#post-1".data,
   "Mon, 01 Jan 2024 00:00:00 GMT".data, "hello".data⟩

/-- Oracle: key unseen, post succeeds with handle `11.22`. -/
def itemOracleW : ItemOracle :=
  ⟨.ok none, .ok "11.22".data, .error "boom".data, .ok ()⟩

/-- A stored record with an outdated hash and handle `77.88`. -/
def rawW : List Char := serializeArchive ⟨"0123".data, "77.88".data⟩

/-- Oracle: stored record `rawW`, update succeeds. -/
def oracleChangedW : ItemOracle :=
  ⟨.ok (some rawW), .error "boom".data, .ok "77.88".data, .ok ()⟩

/-- A stored record whose hash is the entry's current fingerprint. -/
def rawSameW : List Char :=
  serializeArchive ⟨fingerprint itemW.title itemW.content, "77.88".data⟩

/-- Oracle: stored record `rawSameW`; both Sink operations would fail. -/
def oracleSameW : ItemOracle :=
  ⟨.ok (some rawSameW), .error "boom".data, .error "boom".data, .ok ()⟩

/-- A second concrete feed entry. -/
def itemBadW : Post :=
  ⟨"Bad Post".data, "https://nais.io/log#bad-entry".data,
   "Tue, 02 Jan 2024 00:00:00 GMT".data, "text".data⟩

/-- Oracle: the store holds a string that is not valid JSON. -/
def badStoredOracleW : ItemOracle :=
  ⟨.ok (some "garbage".data), .error "boom".data, .error "boom".data, .ok ()⟩

/-! ## Theorems -/

set_option maxRecDepth 1000000

theorem splitHash_ne_nil (l : List Char) : splitHash l ≠ [] := by
  cases l with
  | nil => simp [splitHash]
  | cons c rest =>
    simp only [splitHash]
    cases splitHash rest with
    | nil => simp
    | cons s ss =>
      by_cases h : c = '#' <;> simp [h]

theorem splitHash_no_hash {l : List Char} (h : '#' ∉ l) : splitHash l = [l] := by
  induction l with
  | nil => rfl
  | cons c rest ih =>
    have hc : c ≠ '#' := fun hc => h (by simp [hc])
    have hr : '#' ∉ rest := fun hm => h (by simp [hm])
    simp [splitHash, ih hr, hc]

theorem splitHash_append {pre : List Char} (post : List Char) (h : '#' ∉ pre) :
    splitHash (pre ++ '#' :: post) = pre :: splitHash post := by
  induction pre with
  | nil =>
    simp only [List.nil_append, splitHash]
    cases hs : splitHash post with
    | nil => exact absurd hs (splitHash_ne_nil post)
    | cons s ss => simp
  | cons c rest ih =>
    have hc : c ≠ '#' := fun hc => h (by simp [hc])
    have hr : '#' ∉ rest := fun hm => h (by simp [hm])
    simp only [List.cons_append, splitHash, List.append_eq]
    rw [ih hr]
    simp [hc]

theorem splitHash_head (post : List Char) :
    (splitHash post).head? = some (post.takeWhile (fun c => c != '#')) := by
  induction post with
  | nil => rfl
  | cons c rest ih =>
    simp only [splitHash]
    cases hs : splitHash rest with
    | nil => exact absurd hs (splitHash_ne_nil rest)
    | cons s ss =>
      rw [hs] at ih
      simp only [List.head?, Option.some.injEq] at ih
      by_cases hc : c = '#'
      · subst hc
        simp [List.takeWhile_cons]
      · simp [hc, List.takeWhile_cons, ih]

/-- C6 counterexample: the code never fails on a link without `#` — it
falls back to the whole link as the key; and with two `#` it returns the
middle segment only, not everything after the first `#`. -/
theorem claim6_counterexample :
    deriveKey "https://nais.io/log".data = "https://nais.io/log".data ∧
    deriveKey "a#b#c".data = "b".data ∧ "b".data ≠ "b#c".data := by
  refine ⟨by decide, by decide, by decide⟩

/-- C6 (amended): key derivation is total: for a link containing no `#` it
returns the whole link unchanged (no error); for a link `pre#post` with no
`#` in `pre` it returns the part of `post` before any further `#`. -/
theorem claim6_key_derivation_total :
    (∀ l : List Char, '#' ∉ l → deriveKey l = l) ∧
    (∀ pre post : List Char, '#' ∉ pre →
      deriveKey (pre ++ '#' :: post) = post.takeWhile (fun c => c != '#')) := by
  constructor
  · intro l h
    simp [deriveKey, splitHash_no_hash h]
  · intro pre post h
    have hs := splitHash_append post h
    have hh := splitHash_head post
    simp only [deriveKey, hs]
    cases hp : splitHash post with
    | nil => exact absurd hp (splitHash_ne_nil post)
    | cons s ss =>
      rw [hp] at hh
      simp only [List.head?, Option.some.injEq] at hh
      simp [hh]

theorem claim6_witness :
    ('#' ∉ "plain".data ∧ deriveKey "plain".data = "plain".data) ∧
    ('#' ∉ "https://nais.io/log".data ∧
      deriveKey ("https://nais.io/log".data ++ '#' :: "test-post".data) =
        List.takeWhile (fun c => c != '#') "test-post".data) :=
  ⟨⟨by decide, claim6_key_derivation_total.1 "plain".data (by decide)⟩,
   ⟨by decide, claim6_key_derivation_total.2 "https://nais.io/log".data "test-post".data
      (by decide)⟩⟩

/-- C9: the in-memory store meets the get/set contract: a fresh store has
no keys; `get` after `set` returns the set value; a second `set` to the
same key overwrites (last write wins); and neither operation ever returns
an error. -/
theorem claim9_store_contract :
    (∀ k, imGet imNew k = .ok none) ∧
    (∀ s k v, imGet (imSet s k v).2 k = .ok (some v)) ∧
    (∀ s k v1 v2, imGet (imSet (imSet s k v1).2 k v2).2 k = .ok (some v2)) ∧
    (∀ s k, ∃ r, imGet s k = .ok r) ∧
    (∀ s k v, (imSet s k v).1 = .ok ()) := by
  refine ⟨fun k => rfl, fun s k v => ?_, fun s k v1 v2 => ?_, fun s k => ⟨imLookup s k, rfl⟩,
    fun s k v => rfl⟩
  · simp [imGet, imSet, imInsert, imLookup, List.find?]
  · simp [imGet, imSet, imInsert, imLookup, List.find?]

/-- C2: a new entry (no stored record) whose post succeeds produces exactly
one `post_message` call and one `set` for the derived key, storing the JSON
serialization of an `Archive` with the entry's fingerprint and the handle
returned by `post_message`. -/
theorem claim2_new_entry_post_and_set (item : Post) (o : ItemOracle) (ts : List Char)
    (hget : o.getRes = .ok none) (hpost : o.postRes = .ok ts) :
    processItem item o =
      ([.getE (deriveKey item.link) (.ok none), .postE item (.ok ts),
        .setE (deriveKey item.link)
          (serializeArchive ⟨fingerprint item.title item.content, ts⟩) o.setRes], .ok ()) ∧
    (processItem item o).1.countP Event.isPost = 1 ∧
    (processItem item o).1.countP Event.isSet = 1 := by
  have h : processItem item o =
      ([.getE (deriveKey item.link) (.ok none), .postE item (.ok ts),
        .setE (deriveKey item.link)
          (serializeArchive ⟨fingerprint item.title item.content, ts⟩) o.setRes], .ok ()) := by
    simp [processItem, hget, hpost]
  refine ⟨h, ?_, ?_⟩ <;>
    simp [h, List.countP_cons, Event.isPost, Event.isSet, Event.isGet]

theorem claim2_witness :
    (itemOracleW.getRes = Except.ok none ∧ itemOracleW.postRes = Except.ok "11.22".data) ∧
    processItem itemW itemOracleW =
      ([.getE (deriveKey itemW.link) (.ok none), .postE itemW (.ok "11.22".data),
        .setE (deriveKey itemW.link)
          (serializeArchive ⟨fingerprint itemW.title itemW.content, "11.22".data⟩)
          itemOracleW.setRes], .ok ()) :=
  ⟨⟨rfl, rfl⟩, (claim2_new_entry_post_and_set itemW itemOracleW "11.22".data rfl rfl).1⟩

/-- C3: an entry whose stored record parses to hash `H` and handle `X`,
with `H` different from the current fingerprint and a successful update,
produces exactly one `update_message` targeted at `X` and one `set` whose
value has the new fingerprint and carries `X` unchanged. -/
theorem claim3_changed_entry_update_preserves_handle (item : Post) (o : ItemOracle)
    (raw H X u : List Char)
    (hget : o.getRes = .ok (some raw)) (hparse : parseArchive raw = some ⟨H, X⟩)
    (hne : H ≠ fingerprint item.title item.content) (hupd : o.updateRes = .ok u) :
    processItem item o =
      ([.getE (deriveKey item.link) (.ok (some raw)), .updateE item X (.ok u),
        .setE (deriveKey item.link)
          (serializeArchive ⟨fingerprint item.title item.content, X⟩) o.setRes], .ok ()) ∧
    (processItem item o).1.countP Event.isUpdate = 1 ∧
    (processItem item o).1.countP Event.isSet = 1 := by
  have h : processItem item o =
      ([.getE (deriveKey item.link) (.ok (some raw)), .updateE item X (.ok u),
        .setE (deriveKey item.link)
          (serializeArchive ⟨fingerprint item.title item.content, X⟩) o.setRes], .ok ()) := by
    simp [processItem, hget, hparse, hne, hupd]
  refine ⟨h, ?_, ?_⟩ <;>
    simp [h, List.countP_cons, Event.isUpdate, Event.isSet]

theorem claim3_witness :
    (oracleChangedW.getRes = Except.ok (some rawW) ∧
      parseArchive rawW = some ⟨"0123".data, "77.88".data⟩ ∧
      "0123".data ≠ fingerprint itemW.title itemW.content ∧
      oracleChangedW.updateRes = Except.ok "77.88".data) ∧
    processItem itemW oracleChangedW =
      ([.getE (deriveKey itemW.link) (.ok (some rawW)), .updateE itemW "77.88".data
          (.ok "77.88".data),
        .setE (deriveKey itemW.link)
          (serializeArchive ⟨fingerprint itemW.title itemW.content, "77.88".data⟩)
          oracleChangedW.setRes], .ok ()) :=
  ⟨⟨rfl, by decide, by decide, rfl⟩,
   (claim3_changed_entry_update_preserves_handle itemW oracleChangedW rawW "0123".data
      "77.88".data "77.88".data rfl (by decide) (by decide) rfl).1⟩

/-- C4: an entry whose stored record's hash equals the current fingerprint
makes no Sink call and no `set`: the only collaborator call is the `get`,
and the store is left untouched. -/
theorem claim4_unchanged_entry_no_calls (item : Post) (o : ItemOracle) (raw H X : List Char)
    (hget : o.getRes = .ok (some raw)) (hparse : parseArchive raw = some ⟨H, X⟩)
    (heq : H = fingerprint item.title item.content) :
    processItem item o = ([.getE (deriveKey item.link) (.ok (some raw))], .ok ()) ∧
    (processItem item o).1.countP Event.isSink = 0 ∧
    (processItem item o).1.countP Event.isSet = 0 := by
  have h : processItem item o = ([.getE (deriveKey item.link) (.ok (some raw))], .ok ()) := by
    simp [processItem, hget, hparse, heq]
  refine ⟨h, ?_, ?_⟩ <;>
    simp [h, List.countP_cons, Event.isSink, Event.isSet]

theorem claim4_witness :
    (oracleSameW.getRes = Except.ok (some rawSameW) ∧
      parseArchive rawSameW = some ⟨fingerprint itemW.title itemW.content, "77.88".data⟩ ∧
      fingerprint itemW.title itemW.content = fingerprint itemW.title itemW.content) ∧
    processItem itemW oracleSameW =
      ([.getE (deriveKey itemW.link) (.ok (some rawSameW))], .ok ()) :=
  ⟨⟨rfl, by decide, rfl⟩,
   (claim4_unchanged_entry_no_calls itemW oracleSameW rawSameW
      (fingerprint itemW.title itemW.content) "77.88".data rfl (by decide) rfl).1⟩

/-- C1: whatever the collaborators answer, a `set` recorded for an entry
always stores the serialization of an `Archive` whose `hash` is the
fingerprint of the entry's current content, and only after the Sink call of
the taken branch succeeded; if neither Sink operation can succeed, no `set`
happens at all (so the stored state for the key is unchanged). -/
theorem claim1_hash_only_from_successful_sink (item : Post) (o : ItemOracle) :
    (∀ k v r, Event.setE k v r ∈ (processItem item o).1 →
      k = deriveKey item.link ∧
      ∃ ts, v = serializeArchive ⟨fingerprint item.title item.content, ts⟩ ∧
        (o.postRes = .ok ts ∨ ∃ u, o.updateRes = .ok u)) ∧
    ((∀ ts, o.postRes ≠ .ok ts) → (∀ u, o.updateRes ≠ .ok u) →
      ∀ k v r, Event.setE k v r ∉ (processItem item o).1) := by
  constructor
  · intro k v r hmem
    match hg : o.getRes with
    | .ok none =>
      match hp : o.postRes with
      | .ok ts =>
        simp [processItem, hg, hp] at hmem
        obtain ⟨hk, hv, _⟩ := hmem
        exact ⟨hk, ts, hv, Or.inl rfl⟩
      | .error e => simp [processItem, hg, hp] at hmem
    | .ok (some raw) =>
      match hpa : parseArchive raw with
      | none => simp [processItem, hg, hpa] at hmem
      | some archive =>
        by_cases hh : archive.hash = fingerprint item.title item.content
        · simp [processItem, hg, hpa, hh] at hmem
        · match hu : o.updateRes with
          | .ok u =>
            simp [processItem, hg, hpa, hh, hu] at hmem
            obtain ⟨hk, hv, _⟩ := hmem
            exact ⟨hk, archive.timestamp, hv, Or.inr ⟨u, rfl⟩⟩
          | .error e => simp [processItem, hg, hpa, hh, hu] at hmem
    | .error e => simp [processItem, hg] at hmem
  · intro hpost hupd k v r hmem
    match hg : o.getRes with
    | .ok none =>
      match hp : o.postRes with
      | .ok ts => exact hpost ts hp
      | .error e => simp [processItem, hg, hp] at hmem
    | .ok (some raw) =>
      match hpa : parseArchive raw with
      | none => simp [processItem, hg, hpa] at hmem
      | some archive =>
        by_cases hh : archive.hash = fingerprint item.title item.content
        · simp [processItem, hg, hpa, hh] at hmem
        · match hu : o.updateRes with
          | .ok u => exact hupd u hu
          | .error e => simp [processItem, hg, hpa, hh, hu] at hmem
    | .error e => simp [processItem, hg] at hmem

theorem processItem_ok_of_parse (p : Post) (o : ItemOracle)
    (h : ∀ raw, o.getRes = .ok (some raw) → (parseArchive raw).isSome) :
    (processItem p o).2 = .ok () ∧ (processItem p o).1.countP Event.isGet = 1 := by
  match hg : o.getRes with
  | .ok none =>
    match hp : o.postRes with
    | .ok ts => simp [processItem, hg, hp, List.countP_cons, Event.isGet]
    | .error e => simp [processItem, hg, hp, List.countP_cons, Event.isGet]
  | .ok (some raw) =>
    match hpa : parseArchive raw with
    | none =>
      have := h raw hg
      rw [hpa] at this
      simp at this
    | some archive =>
      by_cases hh : archive.hash = fingerprint p.title p.content
      · simp [processItem, hg, hpa, hh, List.countP_cons, Event.isGet]
      · match hu : o.updateRes with
        | .ok u => simp [processItem, hg, hpa, hh, hu, List.countP_cons, Event.isGet]
        | .error e => simp [processItem, hg, hpa, hh, hu, List.countP_cons, Event.isGet]
  | .error e => simp [processItem, hg, List.countP_cons, Event.isGet]

/-- C5 counterexample: a malformed stored record does NOT merely fail its
own entry: the pass aborts at once with `InvalidArchive` (rss.rs line 124,
the `?` operator), and the remaining entries are never processed — here the
second entry's `get` never happens. -/
theorem claim5_counterexample :
    runItems [(itemBadW, badStoredOracleW), (itemW, itemOracleW)] =
      ([Event.getE "bad-entry".data (.ok (some "garbage".data))],
       .error (FeedError.invalidArchive "bad-entry".data)) := by
  decide

/-- C5 (amended): Sink errors and Store get/set errors are entry-fatal
only: if every stored record that `get` returns parses, the pass processes
every entry (one `get` each) and returns success, whatever the Sink and the
`set` responses do; but an entry whose stored record fails JSON parsing
aborts the whole pass with `InvalidArchive` and the remaining entries are
not processed. -/
theorem claim5_pass_error_behavior :
    (∀ ps : List (Post × ItemOracle),
      (∀ pr ∈ ps, ∀ raw, pr.2.getRes = .ok (some raw) → (parseArchive raw).isSome) →
      (runItems ps).2 = .ok () ∧ (runItems ps).1.countP Event.isGet = ps.length) ∧
    (∀ (p : Post) (o : ItemOracle) (raw : List Char) (rest : List (Post × ItemOracle)),
      o.getRes = .ok (some raw) → parseArchive raw = none →
      runItems ((p, o) :: rest) =
        ([Event.getE (deriveKey p.link) (.ok (some raw))],
         .error (.invalidArchive (deriveKey p.link)))) := by
  constructor
  · intro ps hps
    induction ps with
    | nil => simp [runItems]
    | cons pr rest ih =>
      obtain ⟨p, o⟩ := pr
      have hhead := processItem_ok_of_parse p o (hps (p, o) (by simp))
      have htail := ih (fun q hq => hps q (by simp [hq]))
      rcases hpp : processItem p o with ⟨evs, res⟩
      rw [hpp] at hhead
      obtain ⟨hres, hcnt⟩ := hhead
      simp only at hres hcnt
      subst hres
      simp [runItems, hpp, List.countP_append, hcnt, htail.1, htail.2, Nat.add_comm]
  · intro p o raw rest hget hparse
    simp [runItems, processItem, hget, hparse]

theorem claim5_witness :
    ((runItems [(itemW, itemOracleW)]).2 = .ok () ∧
      (runItems [(itemW, itemOracleW)]).1.countP Event.isGet =
        [(itemW, itemOracleW)].length) ∧
    runItems [(itemBadW, badStoredOracleW)] =
      ([Event.getE (deriveKey itemBadW.link) (.ok (some "garbage".data))],
       .error (.invalidArchive (deriveKey itemBadW.link))) :=
  ⟨claim5_pass_error_behavior.1 [(itemW, itemOracleW)]
    (by
      intro pr hpr raw hraw
      simp only [List.mem_singleton] at hpr
      subst hpr
      simp [itemOracleW] at hraw),
   claim5_pass_error_behavior.2 itemBadW badStoredOracleW "garbage".data [] rfl (by decide)⟩

theorem wordBytesLE_lt (w : Nat) : ∀ b ∈ wordBytesLE w, b < 256 := by
  intro b hb
  simp only [wordBytesLE, List.mem_cons, List.mem_singleton, List.not_mem_nil, or_false] at hb
  rcases hb with rfl | rfl | rfl | rfl <;> omega

theorem md5Bytes_lt (msg : List Nat) : ∀ b ∈ md5Bytes msg, b < 256 := by
  intro b hb
  simp only [md5Bytes, List.mem_append] at hb
  rcases hb with ((h | h) | h) | h <;> exact wordBytesLE_lt _ b h

theorem hexChar_hexLower {n : Nat} (h : n < 16) : isHexLowerChar (hexChar n) = true := by
  interval_cases n <;> decide

theorem byteHexFlat_length (l : List Nat) : ((l.map byteHex).flatten).length = 2 * l.length := by
  induction l with
  | nil => rfl
  | cons b rest ih =>
    simp only [List.map_cons, List.flatten_cons, List.length_append, ih, byteHex]
    simp; omega

theorem md5Hex_length (msg : List Nat) : (md5Hex msg).length = 32 := by
  have h16 : (md5Bytes msg).length = 16 := by simp [md5Bytes, wordBytesLE]
  rw [md5Hex, byteHexFlat_length, h16]

theorem md5Hex_mem_hex (msg : List Nat) : ∀ ch ∈ md5Hex msg, isHexLowerChar ch = true := by
  intro ch hch
  simp only [md5Hex, List.mem_flatten, List.mem_map] at hch
  obtain ⟨l, ⟨b, hb, rfl⟩, hchl⟩ := hch
  have hlt := md5Bytes_lt msg b hb
  simp only [byteHex, List.mem_cons, List.mem_singleton, List.not_mem_nil, or_false] at hchl
  rcases hchl with rfl | rfl
  · exact hexChar_hexLower (by omega)
  · exact hexChar_hexLower (by omega)

/-- C7: the fingerprint is the lowercase-hex 128-bit MD5 digest of
`title ++ "-" ++ content`; it is a pure function (identical inputs give the
identical output), its output always has exactly 32 characters, and every
output character is a lowercase hexadecimal digit. -/
theorem claim7_fingerprint_deterministic_hex (title content : List Char) :
    fingerprint title content = md5Hex (strBytes (title ++ '-' :: content)) ∧
    (∀ t2 c2, title = t2 → content = c2 →
      fingerprint title content = fingerprint t2 c2) ∧
    (fingerprint title content).length = 32 ∧
    (∀ ch ∈ fingerprint title content, isHexLowerChar ch = true) :=
  ⟨rfl, fun _ _ ht hc => by rw [ht, hc], md5Hex_length _, md5Hex_mem_hex _⟩

theorem claim7_witness :
    (fingerprint "Test Post".data "hello".data).length = 32 ∧
    isHexLowerChar 'a' = true :=
  ⟨(claim7_fingerprint_deterministic_hex "Test Post".data "hello".data).2.2.1,
   (claim7_fingerprint_deterministic_hex "Test Post".data "hello".data).2.2.2 'a' (by decide)⟩

theorem matchUrl_clean {u : List Char} (r : List Char)
    (hu : ∀ c ∈ u, c ≠ '\n' ∧ c ≠ ')') :
    matchUrl (u ++ ')' :: r) = some (u, r) := by
  induction u with
  | nil => simp [matchUrl]
  | cons c u2 ih =>
    have hc := hu c (by simp)
    have hu2 : ∀ c2 ∈ u2, c2 ≠ '\n' ∧ c2 ≠ ')' := fun c2 h2 => hu c2 (by simp [h2])
    simp [matchUrl, hc.1, hc.2, ih hu2]

theorem matchTU_cons_skip {c : Char} {s : List Char} (hnl : c ≠ '\n')
    (hcond : ¬(c = ']' ∧ s.head? = some '(' ∧ (matchUrl s.tail).isSome = true)) :
    matchTU (c :: s) = (matchTU s).map (fun p => (c :: p.1, p.2)) := by
  simp only [matchTU]
  rw [if_neg hnl, if_neg hcond]

theorem matchTU_cons_hit {s u r : List Char} (h2 : s.head? = some '(')
    (h3 : matchUrl s.tail = some (u, r)) :
    matchTU (']' :: s) = some ([], u, r) := by
  simp only [matchTU]
  rw [if_neg (by decide), if_pos (by simp [h2, h3]), h3]
  rfl

theorem matchTU_boundary {t u : List Char} (rest : List Char)
    (ht : ∀ c ∈ t, c ≠ '\n') (hrb : hasRB t = false)
    (hu : ∀ c ∈ u, c ≠ '\n' ∧ c ≠ ')') :
    matchTU (t ++ (']' :: '(' :: (u ++ ')' :: rest))) = some (t, u, rest) := by
  induction t with
  | nil =>
    rw [List.nil_append]
    exact matchTU_cons_hit (by simp) (by simpa using matchUrl_clean rest hu)
  | cons c t2 ih =>
    have hc : c ≠ '\n' := ht c (by simp)
    have ht2 : ∀ c2 ∈ t2, c2 ≠ '\n' := fun c2 h2 => ht c2 (by simp [h2])
    have hrb2 : hasRB t2 = false := by
      simp only [hasRB, Bool.or_eq_false_iff] at hrb
      exact hrb.2
    have hcond : ¬(c = ']' ∧ (t2 ++ (']' :: '(' :: (u ++ ')' :: rest))).head? = some '(' ∧
        (matchUrl (t2 ++ (']' :: '(' :: (u ++ ')' :: rest))).tail).isSome = true) := by
      rintro ⟨hc1, hc2, -⟩
      subst hc1
      simp only [hasRB, Bool.or_eq_false_iff, Bool.and_eq_false_iff] at hrb
      cases t2 with
      | nil => simp at hc2
      | cons d t3 =>
        simp only [List.cons_append, List.head?_cons, Option.some.injEq] at hc2
        subst hc2
        rcases hrb.1 with h | h
        · simp at h
        · simp at h
    rw [List.cons_append, matchTU_cons_skip hc hcond, ih ht2 hrb2]
    rfl

theorem replaceAll_nil : replaceAll [] = [] := by
  simp [replaceAll]

theorem replaceAll_cons_ne {c : Char} (s : List Char) (h : c ≠ '[') :
    replaceAll (c :: s) = c :: replaceAll s := by
  rw [replaceAll]
  simp [h]

theorem replaceAll_cons_link {s t u r : List Char} (hm : matchTU s = some (t, u, r)) :
    replaceAll ('[' :: s) = '<' :: u ++ '|' :: t ++ '>' :: replaceAll r := by
  rw [replaceAll]
  rw [if_pos rfl]
  split
  · rename_i t2 u2 r2 heq
    rw [hm] at heq
    simp only [Option.some.injEq, Prod.mk.injEq] at heq
    obtain ⟨rfl, rfl, rfl⟩ := heq
    rfl
  · rename_i heq
    rw [hm] at heq
    simp at heq

theorem replaceAll_cons_nomatch {s : List Char} (hm : matchTU s = none) :
    replaceAll ('[' :: s) = '[' :: replaceAll s := by
  rw [replaceAll]
  rw [if_pos rfl]
  split
  · rename_i t2 u2 r2 heq
    rw [hm] at heq
    simp at heq
  · rfl

theorem replaceAll_copy {a : List Char} (s : List Char) (h : ∀ c ∈ a, c ≠ '[') :
    replaceAll (a ++ s) = a ++ replaceAll s := by
  induction a with
  | nil => simp
  | cons c a2 ih =>
    have hc : c ≠ '[' := h c (by simp)
    have ha2 : ∀ c2 ∈ a2, c2 ≠ '[' := fun c2 h2 => h c2 (by simp [h2])
    simp only [List.cons_append, replaceAll_cons_ne _ hc, ih ha2]

theorem replaceAll_link (t u rest : List Char) (hok : linkOk t u) :
    replaceAll (mdLink t u ++ rest) = slackLink t u ++ replaceAll rest := by
  obtain ⟨ht, hrb, hu⟩ := hok
  have hshape : mdLink t u ++ rest = '[' :: (t ++ (']' :: '(' :: (u ++ ')' :: rest))) := by
    simp [mdLink, List.append_assoc]
  rw [hshape, replaceAll_cons_link (matchTU_boundary rest ht hrb hu)]
  simp [slackLink, List.append_assoc]

theorem replaceAll_id {s : List Char} (h : hasLink s = false) : replaceAll s = s := by
  induction s with
  | nil => exact replaceAll_nil
  | cons c rest ih =>
    simp only [hasLink, Bool.or_eq_false_iff, Bool.and_eq_false_iff] at h
    by_cases hc : c = '['
    · subst hc
      rcases h.1 with hh | hh
      · simp at hh
      · cases hm : matchTU rest with
        | none => rw [replaceAll_cons_nomatch hm, ih h.2]
        | some p => rw [hm] at hh; simp at hh
    · rw [replaceAll_cons_ne _ hc, ih h.2]

/-- C8: the markdown-link rewrite is the identity (hence idempotent) on
inputs the pattern does not match anywhere; it rewrites `[t](u)` to
`<u|t>`, also for several occurrences in one string (applied globally);
and the lazy quantifiers make it non-greedy on nested brackets. -/
theorem claim8_format_rewrite :
    (∀ s, hasLink s = false → format_slack_post s = s) ∧
    (∀ s, hasLink s = false →
      format_slack_post (format_slack_post s) = format_slack_post s) ∧
    (∀ t u, linkOk t u → format_slack_post (mdLink t u) = slackLink t u) ∧
    (∀ a t1 u1 b t2 u2 e, (∀ c ∈ a, c ≠ '[') → linkOk t1 u1 →
      (∀ c ∈ b, c ≠ '[') → linkOk t2 u2 → hasLink e = false →
      format_slack_post (a ++ mdLink t1 u1 ++ b ++ mdLink t2 u2 ++ e) =
        a ++ slackLink t1 u1 ++ b ++ slackLink t2 u2 ++ e) ∧
    format_slack_post (mdLink "a[b]".data "c".data) = slackLink "a[b]".data "c".data := by
  have hid : ∀ s, hasLink s = false → format_slack_post s = s :=
    fun s h => replaceAll_id h
  have hlink : ∀ t u rest, linkOk t u →
      format_slack_post (mdLink t u ++ rest) = slackLink t u ++ replaceAll rest :=
    fun t u rest hok => replaceAll_link t u rest hok
  refine ⟨hid, fun s h => by rw [hid s h, hid s h], fun t u hok => ?_, ?_, ?_⟩
  · have := replaceAll_link t u [] hok
    simpa [format_slack_post, replaceAll_nil] using this
  · intro a t1 u1 b t2 u2 e ha hok1 hb hok2 he
    show replaceAll _ = _
    rw [List.append_assoc a, List.append_assoc a, List.append_assoc a,
      replaceAll_copy _ ha, List.append_assoc (mdLink t1 u1),
      List.append_assoc (mdLink t1 u1), replaceAll_link t1 u1 _ hok1,
      List.append_assoc b, replaceAll_copy _ hb, replaceAll_link t2 u2 e hok2,
      replaceAll_id he]
    simp [List.append_assoc]
  · have := replaceAll_link "a[b]".data "c".data [] (by decide)
    simpa [format_slack_post, replaceAll_nil] using this

theorem jsonEscapeChar_plain {c : Char} (h : plainChar c) : jsonEscapeChar c = [c] := by
  obtain ⟨h1, h2, h3⟩ := h
  have t8 : c ≠ Char.ofNat 8 := fun he => absurd h3 (by subst he; decide)
  have t9 : c ≠ '\t' := fun he => absurd h3 (by subst he; decide)
  have t10 : c ≠ '\n' := fun he => absurd h3 (by subst he; decide)
  have t12 : c ≠ Char.ofNat 12 := fun he => absurd h3 (by subst he; decide)
  have t13 : c ≠ '\r' := fun he => absurd h3 (by subst he; decide)
  have t32 : ¬(c.toNat < 32) := by omega
  simp [jsonEscapeChar, h1, h2, t8, t9, t10, t12, t13, t32]

theorem escFlat_plain {s : List Char} (h : plainStr s) :
    (s.map jsonEscapeChar).flatten = s := by
  induction s with
  | nil => rfl
  | cons c s2 ih =>
    have hc := h c (by simp)
    have hs2 : plainStr s2 := fun c2 h2 => h c2 (by simp [h2])
    simp [jsonEscapeChar_plain hc, ih hs2]

theorem jsonQuote_plain {s : List Char} (h : plainStr s) :
    jsonQuote s = '"' :: s ++ ['"'] := by
  simp [jsonQuote, escFlat_plain h]

theorem parseStrBodyF_plain (r : List Char) :
    ∀ (s : List Char) (fuel : Nat), plainStr s → s.length + 1 ≤ fuel →
      parseStrBodyF fuel (s ++ '"' :: r) = some (s, r) := by
  intro s
  induction s with
  | nil =>
    intro fuel h hf
    obtain ⟨f, rfl⟩ : ∃ f, fuel = f + 1 := ⟨fuel - 1, by omega⟩
    simp [parseStrBodyF]
  | cons c s2 ih =>
    intro fuel h hf
    obtain ⟨f, rfl⟩ : ∃ f, fuel = f + 1 := ⟨fuel - 1, by omega⟩
    obtain ⟨h1, h2, h3⟩ := h c (by simp)
    have hs2 : plainStr s2 := fun c2 hc2 => h c2 (by simp [hc2])
    have t32 : ¬(c.toNat < 32) := by omega
    simp only [List.cons_append, parseStrBodyF, List.append_eq]
    rw [if_neg h1, if_neg h2, if_neg t32, ih f hs2 (by simp at hf ⊢; omega)]
    rfl

theorem parseStrBody_plain {s : List Char} (h : plainStr s) (r : List Char) :
    parseStrBody (s ++ '"' :: r) = some (s, r) := by
  rw [parseStrBody]
  exact parseStrBodyF_plain r s _ h (by simp [List.length_append])

theorem hexLower_plain {c : Char} (h : isHexLowerChar c = true) : plainChar c := by
  simp only [isHexLowerChar, Bool.or_eq_true, Bool.and_eq_true, decide_eq_true_eq] at h
  refine ⟨fun he => ?_, fun he => ?_, ?_⟩
  · subst he; revert h; decide
  · subst he; revert h; decide
  · omega

theorem fingerprint_plain (title content : List Char) :
    plainStr (fingerprint title content) :=
  fun c hc => hexLower_plain (md5Hex_mem_hex _ c hc)

theorem skipWs_cons_not {c : Char} (r : List Char) (h : isJsonWs c = false) :
    skipWs (c :: r) = c :: r := by
  simp [skipWs, h]

theorem skipWs_nil : skipWs [] = [] := rfl

theorem parseValue_serialized (fuel : Nat) {h t : List Char}
    (hh : plainStr h) (ht : plainStr t) :
    parseValue (fuel + 5) (serializeArchive ⟨h, t⟩) =
      some (Json.obj [("hash".data, Json.str h), ("timestamp".data, Json.str t)], []) := by
  have swl : ∀ r : List Char, skipWs (lbrace :: r) = lbrace :: r :=
    fun r => skipWs_cons_not r (by decide)
  have swq : ∀ r : List Char, skipWs ('"' :: r) = '"' :: r :=
    fun r => skipWs_cons_not r (by decide)
  have swc : ∀ r : List Char, skipWs (':' :: r) = ':' :: r :=
    fun r => skipWs_cons_not r (by decide)
  have swm : ∀ r : List Char, skipWs (',' :: r) = ',' :: r :=
    fun r => skipWs_cons_not r (by decide)
  have swr : ∀ r : List Char, skipWs (rbrace :: r) = rbrace :: r :=
    fun r => skipWs_cons_not r (by decide)
  have pkey1 : ∀ r, parseStrBody ('h' :: 'a' :: 's' :: 'h' :: '"' :: r) =
      some ("hash".data, r) := by
    intro r
    simpa using parseStrBody_plain (show plainStr "hash".data by decide) r
  have pkey2 : ∀ r, parseStrBody ('t' :: 'i' :: 'm' :: 'e' :: 's' :: 't' :: 'a' :: 'm' ::
      'p' :: '"' :: r) = some ("timestamp".data, r) := by
    intro r
    simpa using parseStrBody_plain (show plainStr "timestamp".data by decide) r
  have f1 : (lbrace = '"') = False := eq_false (by decide)
  have f2 : ('"' = rbrace) = False := eq_false (by decide)
  have f3 : (rbrace = '"') = False := eq_false (by decide)
  have f4 : (lbrace = lbrace) = True := eq_true rfl
  have f5 : ('"' = '"') = True := eq_true rfl
  have f6 : (rbrace = rbrace) = True := eq_true rfl
  have f7 : ((',' : Char) = ',') = True := eq_true rfl
  have f8 : (rbrace = ',') = False := eq_false (by decide)
  have f9 : ((':' : Char) = ':') = True := eq_true rfl
  rw [serializeArchive, jsonQuote_plain hh, jsonQuote_plain ht,
    jsonQuote_plain (show plainStr "hash".data by decide),
    jsonQuote_plain (show plainStr "timestamp".data by decide)]
  simp only [List.cons_append, List.append_assoc, List.nil_append, List.append_nil,
    List.singleton_append]
  simp only [parseValue, parseObjRest, parseMembers, swl, swq, swc, swm, swr, skipWs_nil,
    pkey1, pkey2, parseStrBody_plain hh, parseStrBody_plain ht,
    f1, f2, f3, f4, f5, f6, f7, f8, f9, if_true, if_false, Option.map_some', Option.map_none']

theorem parseArchive_serialized {h t : List Char} (hh : plainStr h) (ht : plainStr t) :
    parseArchive (serializeArchive ⟨h, t⟩) = some ⟨h, t⟩ := by
  have hlen : 1 ≤ (serializeArchive ⟨h, t⟩).length := by
    simp [serializeArchive]
  obtain ⟨f, hf⟩ : ∃ f, 3 * (serializeArchive ⟨h, t⟩).length + 3 = f + 5 :=
    ⟨3 * (serializeArchive ⟨h, t⟩).length - 2, by omega⟩
  rw [parseArchive, hf, parseValue_serialized f hh ht]
  have hne1 : (("timestamp".data : List Char) == "hash".data) = false := by decide
  have hne2 : (("hash".data : List Char) == "timestamp".data) = false := by decide
  simp [deserArchive, countKey, getStrField, skipWs, List.dropWhile, List.countP,
    List.countP.go, List.find?, hne1, hne2]

theorem storeOk_lookup {s : ImStore} {k raw : List Char} (hs : storeOk s)
    (hl : imLookup s k = some raw) :
    ∃ a : Archive, raw = serializeArchive a ∧ plainStr a.hash ∧ plainStr a.timestamp := by
  rw [imLookup] at hl
  cases hf : List.find? (fun p => p.1 == k) s with
  | none => rw [hf] at hl; simp at hl
  | some p =>
    rw [hf] at hl
    simp only [Option.map_some', Option.some.injEq] at hl
    obtain ⟨a, ha, h1, h2⟩ := hs p (List.mem_of_find?_eq_some hf)
    exact ⟨a, by rw [← hl, ha], h1, h2⟩

theorem dryRunItem_ok (item : Post) (s : ImStore) (hs : storeOk s) :
    (dryRunItem item s).2 = .ok () ∧ storeOk (dryRunItem item s).1 := by
  simp only [dryRunItem]
  cases hl : imLookup s (deriveKey item.link) with
  | none =>
    refine ⟨rfl, ?_⟩
    intro kv hkv
    rcases List.mem_cons.mp hkv with rfl | hkv
    · exact ⟨⟨fingerprint item.title item.content, dryRunTs⟩, rfl, fingerprint_plain _ _,
        show plainStr dryRunTs by decide⟩
    · exact hs kv hkv
  | some raw =>
    obtain ⟨a, rfl, h1, h2⟩ := storeOk_lookup hs hl
    have hp : parseArchive (serializeArchive a) = some a := parseArchive_serialized h1 h2
    dsimp only
    rw [hp]
    dsimp only
    by_cases hhash : a.hash = fingerprint item.title item.content
    · rw [if_pos hhash]
      exact ⟨rfl, hs⟩
    · rw [if_neg hhash]
      refine ⟨rfl, ?_⟩
      intro kv hkv
      rcases List.mem_cons.mp hkv with rfl | hkv
      · exact ⟨⟨fingerprint item.title item.content, a.timestamp⟩, rfl,
          fingerprint_plain _ _, h2⟩
      · exact hs kv hkv

theorem runDryRun_ok (items : List Post) (s : ImStore) (hs : storeOk s) :
    (runDryRun items s).2 = .ok () := by
  induction items generalizing s with
  | nil => rfl
  | cons p rest ih =>
    have hp := dryRunItem_ok p s hs
    rcases hd : dryRunItem p s with ⟨s2, res⟩
    rw [hd] at hp
    obtain ⟨hres, hok⟩ := hp
    simp only at hres hok
    subst hres
    simp only [runDryRun, hd]
    exact ih s2 hok

/-- C10: in dry-run mode, processing any parsed feed succeeds: the store
starts empty and only ever holds serializations the reconciler itself
produced (whose fields are plain characters — hex digests and `dry-run`),
so every stored record parses back (`InvalidArchive` unreachable),
serialization of an `Archive` cannot fail (`SerializeArchive` unreachable),
and the logging sink never fails. -/
theorem claim10_dry_run_ok (items : List Post) : handleFeedDryRun items = .ok () :=
  runDryRun_ok items imNew (fun kv hkv => absurd hkv (List.not_mem_nil kv))

theorem claim8_witness :
    (hasLink "no links here".data = false ∧
      format_slack_post "no links here".data = "no links here".data) ∧
    (linkOk "NAIS".data "https://nais.io".data ∧
      format_slack_post (mdLink "NAIS".data "https://nais.io".data) =
        slackLink "NAIS".data "https://nais.io".data) ∧
    format_slack_post ("See ".data ++ mdLink "One".data "u1".data ++ " and ".data ++
        mdLink "Two".data "u2".data ++ "!".data) =
      "See ".data ++ slackLink "One".data "u1".data ++ " and ".data ++
        slackLink "Two".data "u2".data ++ "!".data :=
  ⟨⟨by decide, claim8_format_rewrite.1 "no links here".data (by decide)⟩,
   ⟨by decide, claim8_format_rewrite.2.2.1 "NAIS".data "https://nais.io".data (by decide)⟩,
   claim8_format_rewrite.2.2.2.1 "See ".data "One".data "u1".data " and ".data
     "Two".data "u2".data "!".data (by decide) (by decide) (by decide) (by decide) (by decide)⟩

theorem claim1_witness :
    "post-1".data = deriveKey itemW.link ∧
    ∃ ts,
      serializeArchive ⟨fingerprint itemW.title itemW.content, "11.22".data⟩ =
        serializeArchive ⟨fingerprint itemW.title itemW.content, ts⟩ ∧
      (itemOracleW.postRes = .ok ts ∨ ∃ u, itemOracleW.updateRes = .ok u) :=
  (claim1_hash_only_from_successful_sink itemW itemOracleW).1 "post-1".data
    (serializeArchive ⟨fingerprint itemW.title itemW.content, "11.22".data⟩)
    (.ok ()) (by decide)

end Announcer
